import Mathlib

/-!
Verification of the dataCleanup entity-resolution core.

This file gives a shallow embedding of the matching, clustering and merge
components of the repository (src/datacleanup/matching/record_matcher.py,
src/datacleanup/matching/column_matcher.py, src/datacleanup/merge/resolver.py)
and proves or refutes the frozen claims about them.

Modelling conventions:
 - Python `str` values are Lean `String`, with character-level operations on
   `List Char` (Python `.lower()`, `.strip()`, `isdigit`, `in`).
 - Python `float` scores are modelled as exact rationals `ℚ`.
 - Python `dict` is an association list in insertion order; assignment
   updates the first (unique) binding in place, insertion appends at the end,
   matching dict semantics.
 - `pandas.DataFrame` is a `Frame`: a column list plus rows of
   column-to-string-value association lists; a missing cell reads as `""`.
 - `rapidfuzz.fuzz.ratio` is the normalized Indel similarity (scaled 0..100),
   `fuzz.token_sort_ratio` applies it to the whitespace-token-sorted strings,
   and `rapidfuzz.process.extract` is a stable descending sort by score
   truncated to the limit (the documented `heapq.nlargest` behaviour).
-/

namespace DataCleanup

open scoped List

/-- Association-list lookup with in-place-update insertion order: the Python
dict lookup. Written with `ite` (not `List.lookup`'s `Bool` match) so that
concrete instances reduce under `simp`. -/
def assocFind {α β : Type} [DecidableEq α] : List (α × β) → α → Option β
  | [], _ => none
  | e :: es, k => if e.1 = k then some e.2 else assocFind es k

/-- Python `str.lower()` (ASCII case folding, which covers the repository's data). -/
def pyLower (s : String) : String := ⟨s.data.map Char.toLower⟩

/-- Python `str.strip()`: remove whitespace from both ends. -/
def pyStrip (s : String) : String :=
  ⟨((s.data.dropWhile Char.isWhitespace).reverse.dropWhile Char.isWhitespace).reverse⟩

/-- `"".join(c for c in s if c.isdigit())`. -/
def onlyDigits (s : String) : String := ⟨s.data.filter Char.isDigit⟩

/-- `leadsWith p s` is true when list `s` starts with `p`. -/
def leadsWith : List Char → List Char → Bool
  | [], _ => true
  | _ :: _, [] => false
  | a :: ps, b :: ss => a = b && leadsWith ps ss

/-- `trailsWith p s` is true when list `s` ends with `p`. -/
def trailsWith (p s : List Char) : Bool := leadsWith p.reverse s.reverse

/-- `subList a b` is Python `a in b`: `a` occurs contiguously inside `b`. -/
def subList (a : List Char) : List Char → Bool
  | [] => a.isEmpty
  | c :: cs => leadsWith a (c :: cs) || subList a cs

/-- Python substring test `a in b` on strings. -/
def pySub (a b : String) : Bool := subList a.data b.data

/-- Indel (insertion/deletion) edit distance, the metric underlying
`rapidfuzz.fuzz.ratio`. -/
def indelDist : List Char → List Char → ℕ
  | [], bs => bs.length
  | a :: as, [] => (a :: as).length
  | a :: as, b :: bs =>
    if a = b then indelDist as bs
    else 1 + min (indelDist as (b :: bs)) (indelDist (a :: as) bs)
termination_by a b => a.length + b.length
decreasing_by all_goals simp_arith

/-- `rapidfuzz.fuzz.ratio`: normalized Indel similarity scaled to 0..100;
both strings empty gives 100. -/
def fuzzRatioQ (a b : String) : ℚ :=
  let n : ℕ := a.data.length + b.data.length
  if n = 0 then 100 else 100 * (1 - (indelDist a.data b.data : ℚ) / (n : ℚ))

/-- Python `str.split()` with no argument: split on runs of whitespace,
dropping empty pieces. -/
def splitWsAux : List Char → List Char → List (List Char)
  | [], acc => if acc.isEmpty then [] else [acc.reverse]
  | c :: cs, acc =>
    if c.isWhitespace then
      if acc.isEmpty then splitWsAux cs [] else acc.reverse :: splitWsAux cs []
    else splitWsAux cs (c :: acc)

/-- Tokenize a string on whitespace. -/
def tokensOf (s : String) : List String := (splitWsAux s.data []).map (fun l => ⟨l⟩)

/-- Lexicographic (code-point) comparison on character lists, Python's `≤` on `str`. -/
def leChars : List Char → List Char → Bool
  | [], _ => true
  | _ :: _, [] => false
  | a :: as, b :: bs => if a = b then leChars as bs else decide (a < b)

/-- Insert into an ascending (by `leChars`) list of strings. -/
def insStr (x : String) : List String → List String
  | [] => [x]
  | y :: ys => if leChars y.data x.data then y :: insStr x ys else x :: y :: ys

/-- Python `sorted` on a list of strings (insertion sort; order agrees with
`sorted`, and stability is irrelevant because equal strings are interchangeable). -/
def sortStrs : List String → List String
  | [] => []
  | x :: xs => insStr x (sortStrs xs)

/-- `" ".join(xs)`. -/
def joinSpace : List String → String
  | [] => ""
  | [x] => x
  | x :: y :: ys => x ++ " " ++ joinSpace (y :: ys)

/-- The token-sort preprocessing of `fuzz.token_sort_ratio`: sort the
whitespace tokens and re-join with single spaces. -/
def tokenSortStr (s : String) : String := joinSpace (sortStrs (tokensOf s))

/-- `rapidfuzz.fuzz.token_sort_ratio` (0..100). -/
def tokenSortQ (a b : String) : ℚ := fuzzRatioQ (tokenSortStr a) (tokenSortStr b)

/-! ## Column matcher (`column_matcher.py`) -/

/-- A canonical schema's `columns` entry: canonical name with its alias list,
in dict insertion order (the `type` metadata plays no role in matching). -/
abbrev Schema := List (String × List String)

/-- `ColumnMatcher._default_schema()` (aliases only; types are unused by matching). -/
def defaultSchema : Schema :=
  [("first_name", ["firstname", "fname", "given_name", "givenname"]),
   ("last_name", ["lastname", "lname", "surname", "family_name"]),
   ("email", ["email_address", "e_mail", "mail"]),
   ("phone", ["phone_number", "telephone", "tel", "mobile", "cell"]),
   ("company", ["organization", "org", "employer", "company_name"]),
   ("title", ["job_title", "position", "role"]),
   ("address", ["street", "street_address", "address_line_1"]),
   ("city", ["town", "locality"]),
   ("state", ["province", "region", "state_province"]),
   ("postal_code", ["zip", "zip_code", "zipcode", "postcode"]),
   ("country", ["nation", "country_code"])]

/-- Python dict assignment `m[k] = v` on a string-keyed association list:
update the first binding of `k` in place, else append. -/
def dictSetStr : List (String × String) → String → String → List (String × String)
  | [], k, v => [(k, v)]
  | p :: ps, k, v => if p.1 = k then (k, v) :: ps else p :: dictSetStr ps k v

/-- `ColumnMatcher._build_alias_map`: canonical names map to themselves, then
every alias (lowercased) maps to its canonical owner, in schema order. -/
def buildAliasMap (schema : Schema) : List (String × String) :=
  schema.foldl
    (fun m c => c.2.foldl (fun m a => dictSetStr m (pyLower a) c.1) (dictSetStr m c.1 c.1))
    []

/-- `list(self.schema.get("columns", {}).keys())`. -/
def canonicalCols (schema : Schema) : List String := schema.map Prod.fst

/-- Insert into a descending-by-key list, after entries with an equal or larger
key (so that the overall sort is stable, like `sorted(..., reverse=True)`). -/
def insDescQ {α : Type} (key : α → ℚ) (x : α) : List α → List α
  | [] => [x]
  | y :: ys => if key y ≤ key x then x :: y :: ys else y :: insDescQ key x ys

/-- Stable descending sort by a rational key (Python `sorted(..., reverse=True)` /
`heapq.nlargest` ordering). -/
def sortDescQ {α : Type} (key : α → ℚ) : List α → List α
  | [] => []
  | x :: xs => insDescQ key x (sortDescQ key xs)

/-- `rapidfuzz.process.extract(query, targets, scorer=fuzz.token_sort_ratio, limit)`:
score every target, order by score descending (stable), keep `limit` results. -/
def extractTop (query : String) (targets : List String) (limit : ℕ) :
    List (String × ℚ) :=
  (sortDescQ Prod.snd (targets.map (fun t => (t, tokenSortQ query t)))).take limit

/-- Result of matching one source column (`ColumnMatch` dataclass). -/
structure ColumnMatch where
  source_column : String
  canonical_column : Option String
  confidence : ℚ
  match_type : String
  alternatives : List (String × ℚ)
deriving DecidableEq

/-- The alternatives-collection loop of `match_column`: walk the remaining
matches, map each back to its canonical owner, and keep the first hit per
canonical name not already seen. -/
def collectAlts (amap : List (String × String)) :
    List (String × ℚ) → List String → List (String × ℚ)
  | [], _ => []
  | (m, s) :: rest, seen =>
    let alt := (assocFind amap m).getD m
    if alt ∈ seen then collectAlts amap rest seen
    else (alt, s / 100) :: collectAlts amap rest (alt :: seen)

/-- `source_column.lower().strip()`. -/
def normalizeLabel (s : String) : String := pyStrip (pyLower s)

/-- The source-independent part of a `ColumnMatch` (everything except the
echoed `source_column`). -/
structure MatchOutcome where
  canonical : Option String
  confidence : ℚ
  match_type : String
  alternatives : List (String × ℚ)
deriving DecidableEq

/-- Body of `ColumnMatcher.match_column` as a function of the normalized label
(the Python code only ever uses `normalized` past the first line, and copies
`source_column` verbatim into the result). -/
def matchOutcome (schema : Schema) (threshold : ℚ) (normalized : String) :
    MatchOutcome :=
  if normalized ∈ canonicalCols schema then ⟨some normalized, 1, "exact", []⟩
  else
    match assocFind (buildAliasMap schema) normalized with
    | some canon => ⟨some canon, 1, "alias", []⟩
    | none =>
      match extractTop normalized ((buildAliasMap schema).map Prod.fst) 5 with
      | [] => ⟨none, 0, "none", []⟩
      | (best, bestScore) :: rest =>
        let confidence := bestScore / 100
        let canonical := (assocFind (buildAliasMap schema) best).getD best
        let alternatives := collectAlts (buildAliasMap schema) rest [canonical]
        if threshold ≤ confidence then
          ⟨some canonical, confidence, "fuzzy", alternatives.take 3⟩
        else
          ⟨none, confidence, "none", (canonical, confidence) :: alternatives.take 2⟩

/-- `ColumnMatcher.match_column`. -/
def matchColumn (schema : Schema) (threshold : ℚ) (source_column : String) :
    ColumnMatch :=
  let o := matchOutcome schema threshold (normalizeLabel source_column)
  ⟨source_column, o.canonical, o.confidence, o.match_type, o.alternatives⟩

/-- State stored by `ColumnMatcher.__init__` (the YAML `schema_path` branch is
file I/O outside the embedded core; `None` falls back to the default schema). -/
structure ColumnMatcherState where
  schema : Schema
  canonical_columns : List String
  alias_map : List (String × String)
deriving DecidableEq

/-- `ColumnMatcher.__init__`: store the schema and build the lookup structures.
No validation of any kind is performed. -/
def columnMatcherInit (canonical_schema : Option Schema) : ColumnMatcherState :=
  let s := canonical_schema.getD defaultSchema
  ⟨s, canonicalCols s, buildAliasMap s⟩

/-! ## Pairwise record scoring (`record_matcher.py`) -/

/-- A `pandas.DataFrame` holding string-valued records: the column list plus
one association list per row. -/
structure Frame where
  columns : List String
  rows : List (List (String × String))
deriving DecidableEq

/-- `str(self.df.iloc[idx][field])`: read a cell; a missing field reads as the
empty string (the spec's "malformed/missing field … treated as empty string"). -/
def getCell (df : Frame) (idx : ℕ) (fld : String) : String :=
  (assocFind (df.rows.getD idx []) fld).getD ""

/-- `MatchConfig` dataclass: weighted match fields (dict order), duplicate
threshold, blocking fields. -/
structure MatchConfig where
  match_fields : List (String × ℚ)
  duplicate_threshold : ℚ
  blocking_fields : List String
deriving DecidableEq

/-- The `MatchConfig` dataclass defaults. -/
def defaultMatchConfig : MatchConfig :=
  ⟨[("email", 1), ("phone", 4/5), ("first_name", 1/2), ("last_name", 3/5),
    ("company", 2/5)],
   4/5,
   ["email", "phone", "last_name"]⟩

/-- `RecordMatcher._field_similarity(val_i, val_j, field)`. -/
def fieldSim (vi vj fld : String) : ℚ :=
  if vi = "" ∨ vj = "" then 0
  else
    let a := pyLower vi
    let b := pyLower vj
    if a = b then 1
    else if fld = "email" then (if a = b then 1 else 0)
    else if fld = "phone" then
      let da := onlyDigits a
      let db := onlyDigits b
      if da = db then 1
      else if pySub da db || pySub db da then 9/10
      else fuzzRatioQ da db / 100
    else tokenSortQ a b / 100

/-- The field loop of `RecordMatcher._score_pair`, with the running weighted
score, total weight and per-field score dict as accumulators. -/
def scoreFieldsAux (df : Frame) (i j : ℕ) :
    List (String × ℚ) → ℚ → ℚ → List (String × ℚ) → ℚ × ℚ × List (String × ℚ)
  | [], ws, tw, fs => (ws, tw, fs)
  | (fld, w) :: rest, ws, tw, fs =>
    if fld ∈ df.columns then
      let vi := pyStrip (getCell df i fld)
      let vj := pyStrip (getCell df j fld)
      if vi = "" ∧ vj = "" then scoreFieldsAux df i j rest ws tw fs
      else
        let sim := fieldSim vi vj fld
        scoreFieldsAux df i j rest (ws + sim * w) (tw + w) (fs ++ [(fld, sim)])
    else scoreFieldsAux df i j rest ws tw fs

/-- `RecordMatcher._score_pair(idx_i, idx_j)`, returning the overall score and
the per-field score dict. -/
def scorePair (df : Frame) (cfg : MatchConfig) (i j : ℕ) : ℚ × List (String × ℚ) :=
  let t := scoreFieldsAux df i j cfg.match_fields 0 0 []
  (if 0 < t.2.1 then t.1 / t.2.1 else 0, t.2.2)

/-- Whether a weighted field contributes to `_score_pair(i, j)`: present in the
frame's columns and not empty in both records. -/
def contribP (df : Frame) (i j : ℕ) (p : String × ℚ) : Bool :=
  decide (p.1 ∈ df.columns ∧
    ¬(pyStrip (getCell df i p.1) = "" ∧ pyStrip (getCell df j p.1) = ""))

/-- The weighted fields that actually contribute to `_score_pair(i, j)`. -/
def contributing (df : Frame) (cfg : MatchConfig) (i j : ℕ) : List (String × ℚ) :=
  cfg.match_fields.filter (contribP df i j)

/-- The field similarity `_score_pair` computes for field `p` of records
`i`, `j` (values stripped at the call site, as in the Python). -/
def pairSim (df : Frame) (i j : ℕ) (fld : String) : ℚ :=
  fieldSim (pyStrip (getCell df i fld)) (pyStrip (getCell df j fld)) fld

/-! ## Cluster builder (`RecordMatcher._cluster_pairs`) -/

/-- The per-pair data kept in `pair_scores`: overall score and per-field
score dict. -/
structure PairData where
  score : ℚ
  field_scores : List (String × ℚ)
deriving DecidableEq

/-- The scored-pair dict `pair_scores`, keyed by `(min, max)` index pairs in
insertion order. -/
abbrev PairScores := List ((ℕ × ℕ) × PairData)

/-- Python dict assignment on the nat-keyed union-find parent dict. -/
def dictSetNat : List (ℕ × ℕ) → ℕ → ℕ → List (ℕ × ℕ)
  | [], k, v => [(k, v)]
  | p :: ps, k, v => if p.1 = k then (k, v) :: ps else p :: dictSetNat ps k v

/-- Parent-pointer chasing with fuel: follow `parent[x]` until a self-loop or a
missing key. -/
def chase (p : List (ℕ × ℕ)) : ℕ → ℕ → ℕ
  | 0, x => x
  | n + 1, x =>
    match assocFind p x with
    | none => x
    | some y => if y = x then x else chase p n y

/-- The root `find(x)` computes for `x` in parent dict `p`. Path compression in
the Python `find` only re-points nodes at their (unchanged) root, so roots and
the key set are identical with or without it; the fuel `p.length` covers any
acyclic chain. -/
def rootOf (p : List (ℕ × ℕ)) (x : ℕ) : ℕ := chase p p.length x

/-- The `if x not in parent: parent[x] = x` insertion performed by `find`. -/
def ufAdd (p : List (ℕ × ℕ)) (x : ℕ) : List (ℕ × ℕ) :=
  if (assocFind p x).isSome then p else p ++ [(x, x)]

/-- `find(x)`: insert `x` if absent, then return its root together with the
updated parent dict. -/
def ufFind (p : List (ℕ × ℕ)) (x : ℕ) : ℕ × List (ℕ × ℕ) :=
  let p' := ufAdd p x
  (rootOf p' x, p')

/-- `union(x, y)`: `parent[find(x)] = find(y)` when the roots differ. -/
def ufUnion (p : List (ℕ × ℕ)) (x y : ℕ) : List (ℕ × ℕ) :=
  let fx := ufFind p x
  let fy := ufFind fx.2 y
  if fx.1 = fy.1 then fy.2 else dictSetNat fy.2 fx.1 fy.1

/-- Append `i` to the group of root `r` in the `clusters_dict`
(`dict[int, list[int]]` in insertion order). -/
def addGroup : List (ℕ × List ℕ) → ℕ → ℕ → List (ℕ × List ℕ)
  | [], r, i => [(r, [i])]
  | g :: gs, r, i => if g.1 = r then (r, g.2 ++ [i]) :: gs else g :: addGroup gs r i

/-- The union-find parent dict after unioning every scored pair. -/
def parentOf (ps : PairScores) : List (ℕ × ℕ) :=
  ps.foldl (fun p pr => ufUnion p pr.1.1 pr.1.2) []

/-- `clusters_dict`: group every index in the parent dict by its root, in
key-insertion order. -/
def groupsOf (ps : PairScores) : List (ℕ × List ℕ) :=
  let parent := parentOf ps
  parent.foldl (fun cd q => addGroup cd (rootOf parent q.1) q.1) []

/-- The `(i, j)` position pairs `i < j` enumerated by the nested aggregation
loops, in loop order. -/
def positionPairs : List ℕ → List (ℕ × ℕ)
  | [] => []
  | x :: xs => xs.map (fun y => (x, y)) ++ positionPairs xs

/-- Append a field score to `aggregated_field_scores[field]`. -/
def addFieldScore : List (String × List ℚ) → String → ℚ → List (String × List ℚ)
  | [], f, s => [(f, [s])]
  | g :: gs, f, s =>
    if g.1 = f then (f, g.2 ++ [s]) :: gs else g :: addFieldScore gs f s

/-- One step of the aggregation loop of `_cluster_pairs`: look up the
normalized `(min, max)` pair and, when it was scored, add its score, bump the
pair count and append its field scores. -/
def aggStep (ps : PairScores) (acc : ℚ × ℕ × List (String × List ℚ))
    (q : ℕ × ℕ) : ℚ × ℕ × List (String × List ℚ) :=
  match assocFind ps (min q.1 q.2, max q.1 q.2) with
  | none => acc
  | some d =>
    (acc.1 + d.score, acc.2.1 + 1,
     d.field_scores.foldl (fun agg e => addFieldScore agg e.1 e.2) acc.2.2)

/-- The aggregation loops of `_cluster_pairs`: total score, number of scored
pairs, and the per-field score lists, over the given position pairs. -/
def aggregatePairs (ps : PairScores) (pairs : List (ℕ × ℕ)) :
    ℚ × ℕ × List (String × List ℚ) :=
  pairs.foldl (aggStep ps) (0, 0, [])

/-- Insert into an ascending list of naturals. -/
def insNat (x : ℕ) : List ℕ → List ℕ
  | [] => [x]
  | y :: ys => if y ≤ x then y :: insNat x ys else x :: y :: ys

/-- Python `sorted` on record indices. -/
def sortNat : List ℕ → List ℕ
  | [] => []
  | x :: xs => insNat x (sortNat xs)

/-- `DuplicateCluster` dataclass. -/
structure DuplicateCluster where
  cluster_id : ℕ
  record_indices : List ℕ
  confidence : ℚ
  field_similarities : List (String × ℚ)
deriving DecidableEq

/-- Build one cluster object from a surviving group: sorted indices, average
confidence over the scored intra-group pairs, and per-field mean scores. -/
def mkCluster (ps : PairScores) (cid : ℕ) (indices : List ℕ) : DuplicateCluster :=
  let t := aggregatePairs ps (positionPairs indices)
  ⟨cid, sortNat indices,
   if 0 < t.2.1 then t.1 / (t.2.1 : ℚ) else 0,
   t.2.2.map (fun g => (g.1, g.2.sum / (g.2.length : ℚ)))⟩

/-- The cluster-building loop: enumerate the groups (ids keep counting over
skipped size-1 groups) and keep those of size at least 2. -/
def buildClusters (ps : PairScores) (groups : List (ℕ × List ℕ)) :
    List DuplicateCluster :=
  groups.enum.filterMap
    (fun e => if e.2.2.length < 2 then none else some (mkCluster ps e.1 e.2.2))

/-- `RecordMatcher._cluster_pairs(pair_scores)`: union-find clustering followed
by aggregation and a stable sort by confidence descending. -/
def clusterPairs (ps : PairScores) : List DuplicateCluster :=
  if ps.isEmpty then []
  else sortDescQ DuplicateCluster.confidence (buildClusters ps (groupsOf ps))

/-- The normalized `(min, max)` forms of the intra-group position pairs. -/
def normPairs (l : List ℕ) : List (ℕ × ℕ) :=
  (positionPairs l).map (fun q => (min q.1 q.2, max q.1 q.2))

/-- The data of the intra-cluster pairs of `indices` that are present in
`pair_scores` — the pairs the spec says the averages are taken over. -/
def scoredIntra (ps : PairScores) (indices : List ℕ) : List PairData :=
  (normPairs indices).filterMap (assocFind ps)

/-- All per-field scores recorded for field `fld` across the scored
intra-cluster pairs of `indices`. -/
def fieldScoresAt (ps : PairScores) (indices : List ℕ) (fld : String) : List ℚ :=
  (scoredIntra ps indices).flatMap
    (fun d => (d.field_scores.filter (fun e => decide (e.1 = fld))).map Prod.snd)

/-- The score list accumulated for field `g` (empty when the field is absent). -/
def aggAt (agg : List (String × List ℚ)) (g : String) : List ℚ :=
  (assocFind agg g).getD []

/-- State stored by `RecordMatcher.__init__`: the dataframe, the configuration
(defaulted when absent), and the empty cluster cache. No validation is
performed. -/
structure RecordMatcherState where
  df : Frame
  config : MatchConfig
  clustersCache : Option (List DuplicateCluster)
deriving DecidableEq

/-- `RecordMatcher.__init__(dataframe, config)`. -/
def recordMatcherInit (dataframe : Frame) (config : Option MatchConfig) :
    RecordMatcherState :=
  ⟨dataframe, config.getD defaultMatchConfig, none⟩

/-! ## Merge resolver (`merge/resolver.py`) -/

/-- `MergeStrategy` enum. -/
inductive MergeStrategy where
  | keepFirst
  | keepLast
  | keepLongest
  | keepMostComplete
  | concatVals
  | manual
deriving DecidableEq

/-- `MergeDecision` dataclass. -/
structure MergeDecision where
  field : String
  chosen_value : String
  source_index : ℕ
  strategy : MergeStrategy
  alternatives : List (ℕ × String)
deriving DecidableEq

/-- `MergeResult` dataclass (the merged record is a field-to-value dict in
column order). -/
structure MergeResult where
  merged_record : List (String × String)
  source_indices : List ℕ
  decisions : List MergeDecision
  confidence : ℚ
deriving DecidableEq

/-- Python `max(xs, key=key)`: the first element attaining the maximal key. -/
def firstMaxBy {α : Type} (key : α → ℕ) (dflt : α) : List α → α
  | [] => dflt
  | x :: rest => rest.foldl (fun best y => if key best < key y then y else best) x

/-- `dict.fromkeys(vals)` deduplication: distinct values in first-seen order. -/
def firstUniques : List String → List String → List String
  | [], _ => []
  | v :: vs, seen =>
    if v ∈ seen then firstUniques vs seen else v :: firstUniques vs (v :: seen)

/-- `"; ".join(xs)`. -/
def joinSemicolon : List String → String
  | [] => ""
  | [x] => x
  | x :: y :: ys => x ++ "; " ++ joinSemicolon (y :: ys)

/-- Number of columns with a non-empty stripped value in row `idx`
(the completeness count of `keep_most_complete`). -/
def countFilled (df : Frame) (idx : ℕ) : ℕ :=
  (df.columns.filter (fun c => !(pyStrip (getCell df idx c) == ""))).length

/-- `MergeResolver._apply_strategy(values, strategy, records)` on the non-empty
`(index, value)` list. -/
def applyStrategy (df : Frame) (values : List (ℕ × String))
    (strategy : MergeStrategy) : ℕ × String :=
  match strategy with
  | .keepFirst => values.headD (0, "")
  | .keepLast => values.getLastD (0, "")
  | .keepLongest => firstMaxBy (fun v => v.2.length) (0, "") values
  | .keepMostComplete =>
    let completeness := values.map (fun v => (v.1, countFilled df v.1))
    let bestIdx := (firstMaxBy Prod.snd (0, 0) completeness).1
    (bestIdx, ((values.find? (fun v => v.1 == bestIdx)).getD (0, "")).2)
  | .concatVals =>
    ((values.headD (0, "")).1,
     joinSemicolon (firstUniques (values.map Prod.snd) []))
  | .manual => values.headD (0, "")

/-- `MergeResolver._resolve_field(field, records, indices, strategy)`. -/
def resolveField (df : Frame) (fld : String) (indices : List ℕ)
    (strategy : MergeStrategy) : MergeDecision :=
  let values := indices.map (fun idx => (idx, pyStrip (getCell df idx fld)))
  let nonEmpty := values.filter (fun v => !(v.2 == ""))
  match nonEmpty with
  | [] => ⟨fld, "", indices.headD 0, strategy, []⟩
  | [(i, v)] => ⟨fld, v, i, strategy, []⟩
  | _ :: _ :: _ =>
    let chosen := applyStrategy df nonEmpty strategy
    ⟨fld, chosen.2, chosen.1, strategy,
     nonEmpty.filter (fun v => !(v.1 == chosen.1) && !(v.2 == chosen.2))⟩

/-- `self.df.iloc[idx].to_dict()`: the row as a field-to-value dict in column
order. -/
def rowDict (df : Frame) (idx : ℕ) : List (String × String) :=
  df.columns.map (fun c => (c, getCell df idx c))

/-- Association-list lookup for per-field strategy overrides. -/
def strategyFor (field_strategies : List (String × MergeStrategy))
    (default_strategy : MergeStrategy) (c : String) : MergeStrategy :=
  (assocFind field_strategies c).getD default_strategy

/-- `MergeResolver.merge_records(indices)`. -/
def mergeRecords (df : Frame) (default_strategy : MergeStrategy)
    (field_strategies : List (String × MergeStrategy)) (indices : List ℕ) :
    MergeResult :=
  if indices = [] then ⟨[], [], [], 0⟩
  else if indices.length = 1 then ⟨rowDict df (indices.headD 0), indices, [], 1⟩
  else
    let decisions := df.columns.map
      (fun c => resolveField df c indices (strategyFor field_strategies default_strategy c))
    let merged := decisions.map (fun d => (d.field, d.chosen_value))
    let agreement := decisions.map
      (fun d => if d.alternatives = [] then (1 : ℚ) else 1/2)
    let confidence :=
      if agreement = [] then 1 else agreement.sum / (agreement.length : ℚ)
    ⟨merged, indices, decisions, confidence⟩

/-- `sorted(set(range(len(df))) - merged_indices)`: the pass-through indices
(those in no cluster) in ascending order. -/
def singletonIdx (df : Frame) (clusters : List (List ℕ)) : List ℕ :=
  (List.range df.rows.length).filter (fun i => decide (i ∉ clusters.flatten))

/-- `MergeResolver.bulk_merge(clusters)`: merge every cluster, then append one
pass-through record per index not in any cluster. -/
def bulkMerge (df : Frame) (default_strategy : MergeStrategy)
    (field_strategies : List (String × MergeStrategy))
    (clusters : List (List ℕ)) :
    List (List (String × String)) × List MergeResult :=
  let results := clusters.map (mergeRecords df default_strategy field_strategies)
  let mergedRecords := results.map MergeResult.merged_record
  let singles := singletonIdx df clusters
  (mergedRecords ++ singles.map (rowDict df), results)

/-- State stored by `MergeResolver.__init__`. No validation is performed. -/
structure MergeResolverState where
  df : Frame
  default_strategy : MergeStrategy
  field_strategies : List (String × MergeStrategy)
deriving DecidableEq

/-- `MergeResolver.__init__(dataframe, default_strategy, field_strategies)`. -/
def mergeResolverInit (dataframe : Frame) (default_strategy : MergeStrategy)
    (field_strategies : Option (List (String × MergeStrategy))) :
    MergeResolverState :=
  ⟨dataframe, default_strategy, field_strategies.getD []⟩

/-! ## Concrete instances used in counterexamples and witnesses -/

/-- The transitivity scenario of the spec: pairs (0,1) and (1,2) scored 0.85
and 0.82, pair (0,2) never compared. -/
def psABC : PairScores :=
  [((0, 1), ⟨17/20, [("phone", 9/10)]⟩), ((1, 2), ⟨41/50, [("phone", 4/5)]⟩)]

/-- The cluster the transitivity scenario must produce: all three records,
confidence (0.85 + 0.82)/2, phone similarity (0.9 + 0.8)/2. -/
def cABC : DuplicateCluster := ⟨0, [0, 1, 2], 167/200, [("phone", 17/20)]⟩

/-- Two records agreeing on column `b` and disagreeing on column `a`. -/
def df2 : Frame := ⟨["a", "b"], [[("a", "x"), ("b", "p")], [("a", "y"), ("b", "p")]]⟩

/-- A four-name vocabulary whose fuzzy scores against `"abcde"` are
80, 60, 40, 20. -/
def schema4 : Schema := [("abcdx", []), ("abcxx", []), ("abxxx", []), ("axxxx", [])]

/-- An invalid configuration: all-zero weights and a duplicate threshold
outside `[0, 1]`. -/
def badCfg : MatchConfig := ⟨[("email", 0), ("phone", 0)], 3/2, ["email"]⟩

/-- Two identical one-column email records. -/
def dfE : Frame := ⟨["email"], [[("email", "a@x.com")], [("email", "a@x.com")]]⟩

/-- A single record whose only weighted field is empty. -/
def dfEmptyRec : Frame := ⟨["email"], [[("email", "")]]⟩

/-- A configuration weighting only the email field. -/
def cfgEmail : MatchConfig := ⟨[("email", 1)], 4/5, []⟩

/-- A single record with a non-empty email. -/
def dfW : Frame := ⟨["email"], [[("email", "a@x.com")]]⟩

/-- Four one-column records, for the bulk-merge partition witness. -/
def df4 : Frame :=
  ⟨["a"], [[("a", "r0")], [("a", "r1")], [("a", "r2")], [("a", "r3")]]⟩

/-! ## Helper lemmas: pairwise scoring -/

/-- Closed form for the `_score_pair` field loop: it adds, over the
contributing fields, the weighted similarities to the score accumulator, the
weights to the weight accumulator, and the per-field similarities to the
score dict. -/
theorem scoreFieldsAux_spec (df : Frame) (i j : ℕ) (fields : List (String × ℚ))
    (ws tw : ℚ) (fs : List (String × ℚ)) :
    scoreFieldsAux df i j fields ws tw fs =
      (ws + ((fields.filter (contribP df i j)).map
          (fun p => pairSim df i j p.1 * p.2)).sum,
       tw + ((fields.filter (contribP df i j)).map Prod.snd).sum,
       fs ++ (fields.filter (contribP df i j)).map
          (fun p => (p.1, pairSim df i j p.1))) := by
  induction fields generalizing ws tw fs with
  | nil => simp [scoreFieldsAux]
  | cons hd rest ih =>
    obtain ⟨fld, w⟩ := hd
    by_cases hcol : fld ∈ df.columns
    · by_cases hemp : pyStrip (getCell df i fld) = "" ∧ pyStrip (getCell df j fld) = ""
      · simp only [scoreFieldsAux, if_pos hcol, if_pos hemp, ih, List.filter_cons,
          contribP, decide_eq_true_eq]
        simp [hcol, hemp]
      · simp only [scoreFieldsAux, if_pos hcol, if_neg hemp, ih, List.filter_cons,
          contribP, decide_eq_true_eq]
        simp [hcol, hemp, pairSim, add_assoc]
    · simp only [scoreFieldsAux, if_neg hcol, ih, List.filter_cons, contribP,
        decide_eq_true_eq]
      simp [hcol]

/-- `scorePair` in terms of the contributing fields. -/
theorem scorePair_eq (df : Frame) (cfg : MatchConfig) (i j : ℕ) :
    scorePair df cfg i j =
      (if 0 < ((contributing df cfg i j).map Prod.snd).sum then
        ((contributing df cfg i j).map (fun p => pairSim df i j p.1 * p.2)).sum /
          ((contributing df cfg i j).map Prod.snd).sum
       else 0,
       (contributing df cfg i j).map (fun p => (p.1, pairSim df i j p.1))) := by
  simp [scorePair, scoreFieldsAux_spec, contributing]

/-- An empty value on either side gives similarity 0. -/
theorem fieldSim_of_empty (vi vj fld : String) (h : vi = "" ∨ vj = "") :
    fieldSim vi vj fld = 0 := by
  simp [fieldSim, h]

/-- A non-empty value is maximally similar to itself. -/
theorem fieldSim_self (v fld : String) (h : v ≠ "") : fieldSim v v fld = 1 := by
  simp [fieldSim, h]

/-- `assocFind` on a key-preserving map hits the image of the unique entry. -/
theorem assocFind_keymap {α β γ : Type} [DecidableEq α] (l : List (α × β))
    (g : α × β → γ) (hnd : (l.map Prod.fst).Nodup) (p : α × β) (hp : p ∈ l) :
    assocFind (l.map (fun q => (q.1, g q))) p.1 = some (g p) := by
  induction l with
  | nil => simp at hp
  | cons hd rest ih =>
    simp only [List.map_cons, List.nodup_cons, List.mem_map] at hnd
    rcases List.mem_cons.1 hp with h | h
    · subst h
      simp [assocFind]
    · have hne : hd.1 ≠ p.1 := by
        intro he
        exact hnd.1 ⟨p, h, he.symm⟩
      simp only [List.map_cons, assocFind, if_neg hne]
      exact ih hnd.2 h

/-! ## Helper lemmas: merge confidence -/

/-- The agreement-score mean of `merge_records`: summing 1 for each decision
without alternatives and 1/2 for each with alternatives. -/
theorem agreementSum (ds : List MergeDecision) :
    (ds.map (fun d => if d.alternatives = [] then (1 : ℚ) else 1/2)).sum =
      ((ds.length : ℚ) +
        ((ds.filter (fun d => decide (d.alternatives = []))).length : ℚ)) / 2 := by
  induction ds with
  | nil => simp
  | cons d rest ih =>
    by_cases h : d.alternatives = [] <;>
      · simp [h, List.filter_cons]
        linarith [ih]

/-! ## Helper lemmas: alternative collection -/

/-- The canonical names produced by the alternatives loop are distinct and
avoid everything already seen. -/
theorem collectAlts_nodup (amap : List (String × String)) (rest : List (String × ℚ))
    (seen : List String) :
    ((collectAlts amap rest seen).map Prod.fst).Nodup ∧
    (∀ a ∈ (collectAlts amap rest seen).map Prod.fst, a ∉ seen) := by
  induction rest generalizing seen with
  | nil => simp [collectAlts]
  | cons hd tl ih =>
    obtain ⟨m, sc⟩ := hd
    simp only [collectAlts]
    by_cases hmem : (assocFind amap m).getD m ∈ seen
    · simpa [hmem] using ih seen
    · simp only [if_neg hmem, List.map_cons, List.nodup_cons]
      have h2 := ih ((assocFind amap m).getD m :: seen)
      refine ⟨⟨fun hin => (h2.2 _ hin) (List.mem_cons_self _ _), h2.1⟩, ?_⟩
      intro a ha
      rcases List.mem_cons.1 ha with rfl | ha2
      · exact hmem
      · exact fun hseen => (h2.2 a ha2) (List.mem_cons_of_mem _ hseen)

/-! ## Claim C4 -/

/-- C4: when scoring a record pair, a weighted field present in the frame's
columns is skipped (contributes no weight) iff both records' values are empty;
if exactly one value is empty the field's similarity is 0.0 while its weight
still counts (it appears in the per-field dict with score 0); the overall
score is `sum(similarity*weight)/sum(weight)` over the contributing fields,
and 0.0 when no weight was contributed. -/
theorem C4_scorePair_weighted_average (df : Frame) (cfg : MatchConfig) (i j : ℕ)
    (hnd : (cfg.match_fields.map Prod.fst).Nodup) :
    ((scorePair df cfg i j).2 =
      (contributing df cfg i j).map (fun p => (p.1, pairSim df i j p.1))) ∧
    (∀ p ∈ cfg.match_fields, p.1 ∈ df.columns →
      (p ∉ contributing df cfg i j ↔
        (pyStrip (getCell df i p.1) = "" ∧ pyStrip (getCell df j p.1) = ""))) ∧
    (0 < ((contributing df cfg i j).map Prod.snd).sum →
      (scorePair df cfg i j).1 =
        ((contributing df cfg i j).map (fun p => pairSim df i j p.1 * p.2)).sum /
          ((contributing df cfg i j).map Prod.snd).sum) ∧
    (((contributing df cfg i j).map Prod.snd).sum = 0 →
      (scorePair df cfg i j).1 = 0) ∧
    (∀ p ∈ cfg.match_fields, p.1 ∈ df.columns →
      ((pyStrip (getCell df i p.1) = "" ∧ pyStrip (getCell df j p.1) ≠ "") ∨
       (pyStrip (getCell df i p.1) ≠ "" ∧ pyStrip (getCell df j p.1) = "")) →
      assocFind (scorePair df cfg i j).2 p.1 = some 0) := by
  refine ⟨?_, ?_, ?_, ?_, ?_⟩
  · rw [scorePair_eq]
  · intro p hp hcol
    constructor
    · intro hnotin
      by_contra hne
      exact hnotin (List.mem_filter.2 ⟨hp, by simp [contribP, hcol, hne]⟩)
    · intro hboth hin
      have h2 := (List.mem_filter.1 hin).2
      simp only [contribP, decide_eq_true_eq] at h2
      exact h2.2 hboth
  · intro hpos
    rw [scorePair_eq]
    simp [if_pos hpos]
  · intro hzero
    rw [scorePair_eq]
    simp [hzero]
  · intro p hp hcol hone
    have hnb : ¬(pyStrip (getCell df i p.1) = "" ∧ pyStrip (getCell df j p.1) = "") := by
      rcases hone with ⟨_, h⟩ | ⟨h, _⟩ <;> exact fun hb => h (by tauto)
    have hin : p ∈ contributing df cfg i j :=
      List.mem_filter.2 ⟨hp, by simp [contribP, hcol, hnb]⟩
    have hndc : ((contributing df cfg i j).map Prod.fst).Nodup :=
      hnd.sublist ((List.filter_sublist _).map _)
    rw [scorePair_eq]
    simp only []
    rw [assocFind_keymap _ _ hndc p hin]
    have : pairSim df i j p.1 = 0 := by
      apply fieldSim_of_empty
      rcases hone with ⟨h, _⟩ | ⟨_, h⟩
      · exact Or.inl h
      · exact Or.inr h
    rw [this]

/-- Witness for C4 at a concrete frame and configuration. -/
theorem C4_witness :
    (cfgEmail.match_fields.map Prod.fst).Nodup ∧
    (scorePair dfE cfgEmail 0 1).2 =
      (contributing dfE cfgEmail 0 1).map (fun p => (p.1, pairSim dfE 0 1 p.1)) :=
  ⟨by simp [cfgEmail],
   (C4_scorePair_weighted_average dfE cfgEmail 0 1 (by simp [cfgEmail])).1⟩

/-! ## Claim C8 -/

/-- C8 (amended): a record scores exactly 1.0 against itself provided the
configured weights are non-negative and at least one weighted field is present
in the columns, non-empty in the record, and positively weighted. -/
theorem C8_scorePair_self (df : Frame) (cfg : MatchConfig) (i : ℕ)
    (hw : ∀ p ∈ cfg.match_fields, 0 ≤ p.2)
    (hx : ∃ p ∈ cfg.match_fields, p.1 ∈ df.columns ∧
      pyStrip (getCell df i p.1) ≠ "" ∧ 0 < p.2) :
    (scorePair df cfg i i).1 = 1 := by
  obtain ⟨p, hp, hcol, hne, hpos⟩ := hx
  have hin : p ∈ contributing df cfg i i :=
    List.mem_filter.2 ⟨hp, by simp [contribP, hcol]; intro h; exact absurd h hne⟩
  have hsim : ∀ q ∈ contributing df cfg i i, pairSim df i i q.1 = 1 := by
    intro q hq
    have h2 := (List.mem_filter.1 hq).2
    simp only [contribP, decide_eq_true_eq] at h2
    exact fieldSim_self _ _ (fun he => h2.2 ⟨he, he⟩)
  have hSW : ((contributing df cfg i i).map (fun q => pairSim df i i q.1 * q.2)).sum
      = ((contributing df cfg i i).map Prod.snd).sum := by
    apply congrArg List.sum
    apply List.map_congr_left
    intro q hq
    rw [hsim q hq, one_mul]
  have hW : 0 < ((contributing df cfg i i).map Prod.snd).sum := by
    have hmem : p.2 ∈ (contributing df cfg i i).map Prod.snd :=
      List.mem_map_of_mem _ hin
    have hnonneg : ∀ x ∈ (contributing df cfg i i).map Prod.snd, 0 ≤ x := by
      intro x hxm
      obtain ⟨q, hq, rfl⟩ := List.mem_map.1 hxm
      exact hw q (List.mem_filter.1 hq).1
    exact lt_of_lt_of_le hpos (List.single_le_sum hnonneg _ hmem)
  rw [scorePair_eq]
  simp [if_pos hW, hSW, div_self (ne_of_gt hW)]

/-- Counterexample to C8 as stated: the weighted field set is non-empty but
the record's only weighted field is empty, and the self-score is 0, not 1. -/
theorem C8_cex :
    cfgEmail.match_fields ≠ [] ∧
    (scorePair dfEmptyRec cfgEmail 0 0).1 = 0 ∧ (0 : ℚ) ≠ 1 := by
  refine ⟨by simp [cfgEmail], ?_, by norm_num⟩
  norm_num +decide [scorePair, scoreFieldsAux, getCell, assocFind, pyStrip,
    dfEmptyRec, cfgEmail]

/-- Witness for C8 at a concrete record with a non-empty email field. -/
theorem C8_witness :
    (∀ p ∈ cfgEmail.match_fields, 0 ≤ p.2) ∧ (scorePair dfW cfgEmail 0 0).1 = 1 :=
  ⟨by simp [cfgEmail],
   C8_scorePair_self dfW cfgEmail 0 (by simp [cfgEmail])
     ⟨("email", 1), by simp [cfgEmail], by simp [dfW],
      by decide, by norm_num⟩⟩

/-! ## Claim C5 -/

/-- Counterexample to C5: constructing the three components with invalid
configuration (all-zero weights, threshold 3/2, empty vocabulary) raises no
error — each constructor returns normally with the invalid configuration
stored verbatim — and the all-zero weights only surface mid-run as a 0.0
score. -/
theorem C5_cex :
    recordMatcherInit dfE (some badCfg) = ⟨dfE, badCfg, none⟩ ∧
    columnMatcherInit (some []) = ⟨[], [], []⟩ ∧
    mergeResolverInit dfE MergeStrategy.manual (some []) =
      ⟨dfE, MergeStrategy.manual, []⟩ ∧
    (scorePair dfE badCfg 0 1).1 = 0 := by
  refine ⟨rfl, rfl, rfl, ?_⟩
  norm_num +decide [scorePair, scoreFieldsAux, getCell, assocFind, pyStrip,
    dfE, badCfg, fieldSim, pyLower]

/-- C5 (amended): the constructors perform no validation — any configuration
is accepted and stored as-is at construction time — and an invalid
configuration such as all-zero weights is only discovered mid-run, e.g. as a
0.0 pair score. -/
theorem C5_constructors_no_validation :
    (∀ df cfg, recordMatcherInit df (some cfg) = ⟨df, cfg, none⟩) ∧
    (∀ s, columnMatcherInit (some s) = ⟨s, canonicalCols s, buildAliasMap s⟩) ∧
    (∀ df d fs, mergeResolverInit df d (some fs) = ⟨df, d, fs⟩) ∧
    (∀ df cfg i j, (∀ p ∈ cfg.match_fields, p.2 = 0) →
      (scorePair df cfg i j).1 = 0) := by
  refine ⟨fun _ _ => rfl, fun _ => rfl, fun _ _ _ => rfl, ?_⟩
  intro df cfg i j hz
  rw [scorePair_eq]
  have hW : ((contributing df cfg i j).map Prod.snd).sum = 0 := by
    apply List.sum_eq_zero
    intro x hxm
    obtain ⟨q, hq, rfl⟩ := List.mem_map.1 hxm
    exact hz q (List.mem_filter.1 hq).1
  simp [hW]

/-- Witness for C5 at the all-zero-weight configuration. -/
theorem C5_witness :
    (∀ p ∈ badCfg.match_fields, p.2 = 0) ∧ (scorePair dfE badCfg 0 1).1 = 0 :=
  ⟨by simp [badCfg],
   C5_constructors_no_validation.2.2.2 dfE badCfg 0 1 (by simp [badCfg])⟩

/-! ## Claim C3 -/

/-- Counterexample to C3 as stated: for phone values `"234"` and `"12345"`,
the digit strings are neither a suffix nor a prefix of one another, so the
claim predicts the normalized edit-similarity 3/4; the code returns 0.9
because `"234"` occurs as an inner substring of `"12345"`. -/
theorem C3_cex :
    fieldSim "234" "12345" "phone" = 9/10 ∧
    leadsWith "234".data "12345".data = false ∧
    trailsWith "234".data "12345".data = false ∧
    (9/10 : ℚ) ≠ fuzzRatioQ "234" "12345" / 100 := by
  refine ⟨?_, by decide, by decide, ?_⟩
  · norm_num +decide [fieldSim, pyLower, onlyDigits, pySub, subList, leadsWith]
  · norm_num +decide [fuzzRatioQ, indelDist]

/-- C3 (amended): for non-empty phone values, equal digit strings give 1.0;
unequal digit strings where one is a substring of the other (not merely a
suffix or prefix) give 0.9; otherwise the similarity is the normalized
edit-similarity of the digit strings. -/
theorem C3_fieldSim_phone (vi vj : String) (h1 : vi ≠ "") (h2 : vj ≠ "") :
    (onlyDigits (pyLower vi) = onlyDigits (pyLower vj) →
      fieldSim vi vj "phone" = 1) ∧
    (onlyDigits (pyLower vi) ≠ onlyDigits (pyLower vj) →
      (pySub (onlyDigits (pyLower vi)) (onlyDigits (pyLower vj)) ∨
       pySub (onlyDigits (pyLower vj)) (onlyDigits (pyLower vi))) →
      fieldSim vi vj "phone" = 9/10) ∧
    (onlyDigits (pyLower vi) ≠ onlyDigits (pyLower vj) →
      ¬(pySub (onlyDigits (pyLower vi)) (onlyDigits (pyLower vj)) ∨
        pySub (onlyDigits (pyLower vj)) (onlyDigits (pyLower vi))) →
      fieldSim vi vj "phone" =
        fuzzRatioQ (onlyDigits (pyLower vi)) (onlyDigits (pyLower vj)) / 100) := by
  by_cases heq : pyLower vi = pyLower vj
  · have hd : onlyDigits (pyLower vi) = onlyDigits (pyLower vj) := by rw [heq]
    exact ⟨fun _ => by simp [fieldSim, h1, h2, heq],
      fun hne _ => absurd hd hne, fun hne _ => absurd hd hne⟩
  · refine ⟨?_, ?_, ?_⟩
    · intro hd
      simp [fieldSim, h1, h2, heq, hd]
    · intro hd hsub
      rcases hsub with h | h <;> simp [fieldSim, h1, h2, heq, hd, h]
    · intro hd hsub
      rw [not_or] at hsub
      simp only [Bool.not_eq_true] at hsub
      simp [fieldSim, h1, h2, heq, hd, hsub.1, hsub.2]

/-- Witness for C3 at concrete phone values with equal digit strings. -/
theorem C3_witness :
    ("555-12" : String) ≠ "" ∧ ("55512" : String) ≠ "" ∧
    (onlyDigits (pyLower "555-12") = onlyDigits (pyLower "55512") →
      fieldSim "555-12" "55512" "phone" = 1) :=
  ⟨by decide, by decide, (C3_fieldSim_phone _ _ (by decide) (by decide)).1⟩

/-! ## Claim C2 -/

set_option maxHeartbeats 1600000 in
/-- Counterexample to C2 as stated: merging `df2`'s two records yields one
decision with alternatives and one without, so the fraction of fields with no
alternatives is 1/2, but the computed confidence is 3/4. -/
theorem C2_cex :
    (mergeRecords df2 MergeStrategy.keepMostComplete [] [0, 1]).confidence = 3/4 ∧
    (((((mergeRecords df2 MergeStrategy.keepMostComplete [] [0, 1]).decisions.filter
        (fun d => decide (d.alternatives = []))).length : ℚ)) /
      (((mergeRecords df2 MergeStrategy.keepMostComplete [] [0, 1]).decisions.length : ℚ))
      = 1/2) ∧
    (3/4 : ℚ) ≠ 1/2 := by
  refine ⟨?_, ?_, by norm_num⟩ <;>
    norm_num +decide [mergeRecords, resolveField, applyStrategy, firstMaxBy,
      countFilled, strategyFor, getCell, assocFind, pyStrip, rowDict, df2]

/-- C2 (amended): for a merge of two or more records over a non-empty column
set, the confidence is the mean of per-field agreement scores — 1.0 for a
field with no alternatives, 0.5 for a field with alternatives — i.e.
`(#fields + #fields-with-no-alternatives) / (2 * #fields)`, not the bare
fraction of fields with no alternatives. -/
theorem C2_mergeRecords_confidence (df : Frame) (dStrat : MergeStrategy)
    (fStrats : List (String × MergeStrategy)) (indices : List ℕ)
    (h2 : 2 ≤ indices.length) (hc : df.columns ≠ []) :
    (mergeRecords df dStrat fStrats indices).confidence =
      (((mergeRecords df dStrat fStrats indices).decisions.length : ℚ) +
        (((mergeRecords df dStrat fStrats indices).decisions.filter
          (fun d => decide (d.alternatives = []))).length : ℚ)) /
      (2 * ((mergeRecords df dStrat fStrats indices).decisions.length : ℚ)) := by
  have hne : ¬ indices = [] := by
    intro h
    rw [h] at h2
    simp at h2
  have hlen : ¬ indices.length = 1 := by omega
  have hag : (List.map (fun d => if d.alternatives = [] then (1 : ℚ) else 1/2)
      (List.map (fun c => resolveField df c indices (strategyFor fStrats dStrat c))
        df.columns)) ≠ [] := by
    simp [hc]
  simp only [mergeRecords, if_neg hne, if_neg hlen, if_neg hag]
  rw [agreementSum]
  simp only [List.length_map]
  rw [div_div]

/-- Witness for C2 at the concrete two-record frame. -/
theorem C2_witness :
    2 ≤ ([0, 1] : List ℕ).length ∧ df2.columns ≠ [] ∧
    (mergeRecords df2 MergeStrategy.keepMostComplete [] [0, 1]).confidence =
      (((mergeRecords df2 MergeStrategy.keepMostComplete [] [0, 1]).decisions.length : ℚ) +
        (((mergeRecords df2 MergeStrategy.keepMostComplete [] [0, 1]).decisions.filter
          (fun d => decide (d.alternatives = []))).length : ℚ)) /
      (2 * ((mergeRecords df2 MergeStrategy.keepMostComplete [] [0, 1]).decisions.length : ℚ)) :=
  ⟨by decide, by simp [df2],
   C2_mergeRecords_confidence df2 MergeStrategy.keepMostComplete [] [0, 1]
     (by decide) (by simp [df2])⟩

/-! ## Claim C10 -/

/-- C10: merging an empty index list does not raise — it returns the empty
merge result with confidence 0.0 — while a singleton merge passes the record
through unchanged with confidence 1.0 and no decisions. -/
theorem C10_mergeRecords_empty (df : Frame) (dStrat : MergeStrategy)
    (fStrats : List (String × MergeStrategy)) :
    mergeRecords df dStrat fStrats [] = ⟨[], [], [], 0⟩ ∧
    ∀ i, i < df.rows.length →
      mergeRecords df dStrat fStrats [i] = ⟨rowDict df i, [i], [], 1⟩ := by
  constructor
  · simp [mergeRecords]
  · intro i _
    simp [mergeRecords]

/-- Witness for C10 at the concrete two-record frame. -/
theorem C10_witness :
    mergeRecords df2 MergeStrategy.keepMostComplete [] [] = ⟨[], [], [], 0⟩ ∧
    0 < df2.rows.length ∧
    mergeRecords df2 MergeStrategy.keepMostComplete [] [0] =
      ⟨rowDict df2 0, [0], [], 1⟩ :=
  ⟨(C10_mergeRecords_empty df2 MergeStrategy.keepMostComplete []).1,
   by decide,
   (C10_mergeRecords_empty df2 MergeStrategy.keepMostComplete []).2 0 (by decide)⟩

/-! ## Claim C9 -/

/-- Counterexample to C9 as stated: `match("FIRSTNAME")` and
`match("firstname")` do not yield identical results, because the result echoes
the original label in `source_column`; both resolve to the same canonical
column by the same alias path. -/
theorem C9_cex :
    matchColumn defaultSchema (7/10) "FIRSTNAME" ≠
      matchColumn defaultSchema (7/10) "firstname" ∧
    (matchColumn defaultSchema (7/10) "FIRSTNAME").source_column = "FIRSTNAME" ∧
    (matchColumn defaultSchema (7/10) "firstname").source_column = "firstname" ∧
    (matchColumn defaultSchema (7/10) "FIRSTNAME").canonical_column =
      some "first_name" ∧
    (matchColumn defaultSchema (7/10) "firstname").canonical_column =
      some "first_name" ∧
    (matchColumn defaultSchema (7/10) "FIRSTNAME").match_type = "alias" := by
  refine ⟨by decide, rfl, rfl, by decide, by decide, by decide⟩

/-- C9 (amended): matching is case-insensitive in every component except the
echoed `source_column`: labels with the same normalized (lowercased, stripped)
form receive the same canonical column, confidence, match type and
alternatives, for every vocabulary and threshold. -/
theorem C9_matchColumn_case_insensitive (schema : Schema) (threshold : ℚ)
    (s t : String) (h : normalizeLabel s = normalizeLabel t) :
    (matchColumn schema threshold s).canonical_column =
      (matchColumn schema threshold t).canonical_column ∧
    (matchColumn schema threshold s).confidence =
      (matchColumn schema threshold t).confidence ∧
    (matchColumn schema threshold s).match_type =
      (matchColumn schema threshold t).match_type ∧
    (matchColumn schema threshold s).alternatives =
      (matchColumn schema threshold t).alternatives := by
  simp only [matchColumn, h]
  exact ⟨trivial, trivial, trivial, trivial⟩

/-- Witness for C9 at the spec's example pair of labels. -/
theorem C9_witness :
    normalizeLabel "FIRSTNAME" = normalizeLabel "firstname" ∧
    (matchColumn defaultSchema (7/10) "FIRSTNAME").canonical_column =
      (matchColumn defaultSchema (7/10) "firstname").canonical_column ∧
    (matchColumn defaultSchema (7/10) "FIRSTNAME").confidence =
      (matchColumn defaultSchema (7/10) "firstname").confidence ∧
    (matchColumn defaultSchema (7/10) "FIRSTNAME").match_type =
      (matchColumn defaultSchema (7/10) "firstname").match_type ∧
    (matchColumn defaultSchema (7/10) "FIRSTNAME").alternatives =
      (matchColumn defaultSchema (7/10) "firstname").alternatives :=
  ⟨by decide,
   C9_matchColumn_case_insensitive defaultSchema (7/10) "FIRSTNAME" "firstname"
     (by decide)⟩

/-! ## Claim C7 -/

/-- Counterexample to C7 as stated: with a four-name vocabulary, the label
`"abcde"` reaches the fuzzy stage, matches above the 0.7 threshold, and the
result carries 3 further distinct-canonical alternatives, not at most 2. -/
theorem C7_cex :
    (matchColumn schema4 (7/10) "abcde").match_type = "fuzzy" ∧
    (7/10 : ℚ) ≤ (matchColumn schema4 (7/10) "abcde").confidence ∧
    (matchColumn schema4 (7/10) "abcde").alternatives.length = 3 := by
  refine ⟨?_, ?_, ?_⟩ <;>
    norm_num +decide [matchColumn, matchOutcome, normalizeLabel, pyStrip, pyLower,
      canonicalCols, buildAliasMap, dictSetStr, extractTop, sortDescQ, insDescQ,
      tokenSortQ, tokenSortStr, tokensOf, splitWsAux, sortStrs, insStr, joinSpace,
      leChars, fuzzRatioQ, indelDist, collectAlts, assocFind, schema4]

/-- C7 (amended): for a label that reaches the fuzzy stage with a non-empty
match list, the best match is mapped back to its canonical owner; at or above
the threshold the result is kind `fuzzy` with that owner, carrying at most 3
distinct-canonical alternatives none of which repeats the owner; below the
threshold the result is kind `none` with no canonical column, the best match's
owner surfacing as the first alternative followed by at most 2 further
distinct-canonical alternatives; either way the confidence is the best score
scaled to `[0,1]` and no label raises an error. -/
theorem C7_matchColumn_fuzzy (schema : Schema) (threshold : ℚ) (source : String)
    (best : String) (bs : ℚ) (rest : List (String × ℚ))
    (h1 : normalizeLabel source ∉ canonicalCols schema)
    (h2 : assocFind (buildAliasMap schema) (normalizeLabel source) = none)
    (h3 : extractTop (normalizeLabel source) ((buildAliasMap schema).map Prod.fst) 5 =
      (best, bs) :: rest) :
    (threshold ≤ bs/100 →
      (matchColumn schema threshold source).match_type = "fuzzy" ∧
      (matchColumn schema threshold source).canonical_column =
        some ((assocFind (buildAliasMap schema) best).getD best) ∧
      (matchColumn schema threshold source).confidence = bs/100 ∧
      (matchColumn schema threshold source).alternatives.length ≤ 3 ∧
      ((matchColumn schema threshold source).alternatives.map Prod.fst).Nodup ∧
      (assocFind (buildAliasMap schema) best).getD best ∉
        (matchColumn schema threshold source).alternatives.map Prod.fst) ∧
    (¬ threshold ≤ bs/100 →
      (matchColumn schema threshold source).match_type = "none" ∧
      (matchColumn schema threshold source).canonical_column = none ∧
      (matchColumn schema threshold source).confidence = bs/100 ∧
      (matchColumn schema threshold source).alternatives.head? =
        some ((assocFind (buildAliasMap schema) best).getD best, bs/100) ∧
      (matchColumn schema threshold source).alternatives.length ≤ 3 ∧
      ((matchColumn schema threshold source).alternatives.map Prod.fst).Nodup) := by
  have hmo : matchOutcome schema threshold (normalizeLabel source) =
      if threshold ≤ bs/100 then
        ⟨some ((assocFind (buildAliasMap schema) best).getD best), bs/100, "fuzzy",
          (collectAlts (buildAliasMap schema) rest
            [(assocFind (buildAliasMap schema) best).getD best]).take 3⟩
      else
        ⟨none, bs/100, "none",
          ((assocFind (buildAliasMap schema) best).getD best, bs/100) ::
            (collectAlts (buildAliasMap schema) rest
              [(assocFind (buildAliasMap schema) best).getD best]).take 2⟩ := by
    rw [matchOutcome, if_neg h1, h2, h3]
  have hca := collectAlts_nodup (buildAliasMap schema) rest
    [(assocFind (buildAliasMap schema) best).getD best]
  constructor
  · intro hth
    simp only [matchColumn, hmo, if_pos hth]
    refine ⟨trivial, trivial, trivial, ?_, ?_, ?_⟩
    · simp only [List.length_take]
      omega
    · rw [List.map_take]
      exact hca.1.sublist (List.take_sublist _ _)
    · intro hin
      rw [List.map_take] at hin
      have hin2 := (List.take_sublist _ _).subset hin
      exact (hca.2 _ hin2) (List.mem_singleton_self _)
  · intro hth
    simp only [matchColumn, hmo, if_neg hth]
    refine ⟨trivial, trivial, trivial, rfl, ?_, ?_⟩
    · simp only [List.length_cons, List.length_take]
      omega
    · simp only [List.map_cons, List.nodup_cons]
      constructor
      · intro hin
        rw [List.map_take] at hin
        have hin2 := (List.take_sublist _ _).subset hin
        exact (hca.2 _ hin2) (List.mem_singleton_self _)
      · rw [List.map_take]
        exact hca.1.sublist (List.take_sublist _ _)

/-- Witness for C7 at the four-name vocabulary and the label `"abcde"`. -/
theorem C7_witness :
    (matchColumn schema4 (7/10) "abcde").match_type = "fuzzy" ∧
      (matchColumn schema4 (7/10) "abcde").canonical_column =
        some ((assocFind (buildAliasMap schema4) "abcdx").getD "abcdx") ∧
      (matchColumn schema4 (7/10) "abcde").confidence = 80/100 ∧
      (matchColumn schema4 (7/10) "abcde").alternatives.length ≤ 3 ∧
      ((matchColumn schema4 (7/10) "abcde").alternatives.map Prod.fst).Nodup ∧
      (assocFind (buildAliasMap schema4) "abcdx").getD "abcdx" ∉
        (matchColumn schema4 (7/10) "abcde").alternatives.map Prod.fst :=
  (C7_matchColumn_fuzzy schema4 (7/10) "abcde" "abcdx" 80
    [("abcxx", 60), ("abxxx", 40), ("axxxx", 20)]
    (by decide) (by decide)
    (by norm_num +decide [extractTop, sortDescQ, insDescQ, tokenSortQ, tokenSortStr,
      tokensOf, splitWsAux, sortStrs, insStr, joinSpace, leChars, fuzzRatioQ,
      indelDist, buildAliasMap, dictSetStr, pyLower, normalizeLabel, pyStrip,
      schema4])).1 (by norm_num)

/-! ## Claim C6 -/

/-- A filter and its complement split a list's length. -/
theorem length_filter_split {α : Type} (l : List α) (p : α → Bool) :
    (l.filter p).length + (l.filter (fun a => !(p a))).length = l.length := by
  induction l with
  | nil => simp
  | cons a t ih =>
    by_cases h : p a <;> simp [List.filter_cons, h] <;> omega

/-- Pairwise-disjoint clusters with internally distinct indices flatten to a
duplicate-free list. -/
theorem flattenNodup (clusters : List (List ℕ)) (hnd : ∀ c ∈ clusters, c.Nodup)
    (hdisj : clusters.Pairwise (fun a b => ∀ i ∈ a, i ∉ b)) :
    clusters.flatten.Nodup := by
  induction clusters with
  | nil => simp
  | cons c cs ih =>
    rw [List.pairwise_cons] at hdisj
    rw [List.flatten_cons, List.nodup_append]
    refine ⟨hnd c (List.mem_cons_self _ _),
      ih (fun d hd => hnd d (List.mem_cons_of_mem _ hd)) hdisj.2, ?_⟩
    intro a ha hfl
    obtain ⟨d, hd, had⟩ := List.mem_flatten.1 hfl
    exact hdisj.1 d hd a ha had

/-- Membership in the pass-through index list. -/
theorem mem_singletonIdx (df : Frame) (clusters : List (List ℕ)) (k : ℕ) :
    k ∈ singletonIdx df clusters ↔
      k < df.rows.length ∧ k ∉ clusters.flatten := by
  simp [singletonIdx, List.mem_filter, List.mem_range]

/-- In a pairwise-disjoint cluster list, an index lying in some cluster lies
in exactly one. -/
theorem countP_disjoint_one (clusters : List (List ℕ)) (k : ℕ)
    (hdisj : clusters.Pairwise (fun a b => ∀ i ∈ a, i ∉ b))
    (hk : k ∈ clusters.flatten) :
    clusters.countP (fun c => decide (k ∈ c)) = 1 := by
  induction clusters with
  | nil => simp at hk
  | cons c cs ih =>
    rw [List.pairwise_cons] at hdisj
    rw [List.flatten_cons, List.mem_append] at hk
    rw [List.countP_cons]
    by_cases h : k ∈ c
    · have h0 : cs.countP (fun c => decide (k ∈ c)) = 0 := by
        rw [List.countP_eq_zero]
        intro d hd
        simp only [decide_eq_true_eq]
        exact fun hkd => hdisj.1 d hd k h hkd
      simp [h, h0]
    · rcases hk with hk | hk
      · exact absurd hk h
      · simp [h, ih hdisj.2 hk]

/-- An index in no cluster is counted by no cluster. -/
theorem countP_not_mem_zero (clusters : List (List ℕ)) (k : ℕ)
    (hk : k ∉ clusters.flatten) :
    clusters.countP (fun c => decide (k ∈ c)) = 0 := by
  rw [List.countP_eq_zero]
  intro d hd
  simp only [decide_eq_true_eq]
  exact fun hkd => hk (List.mem_flatten.2 ⟨d, hd, hkd⟩)

/-- Filtering `range n` by membership in a duplicate-free list of indices
below `n` counts exactly that list. -/
theorem filter_mem_length (n : ℕ) (l : List ℕ) (hnd : l.Nodup)
    (hsub : ∀ i ∈ l, i < n) :
    ((List.range n).filter (fun i => decide (i ∈ l))).length = l.length := by
  have h1 : ((List.range n).filter (fun i => decide (i ∈ l))).Nodup :=
    (List.nodup_range n).filter _
  have h2 : ∀ a, a ∈ (List.range n).filter (fun i => decide (i ∈ l)) ↔ a ∈ l := by
    intro a
    simp only [List.mem_filter, List.mem_range, decide_eq_true_eq]
    exact ⟨fun h => h.2, fun h => ⟨hsub a h, h⟩⟩
  exact ((List.perm_ext_iff_of_nodup h1 hnd).2 h2).length_eq

/-- C6: for pairwise-disjoint, non-empty, duplicate-free clusters over the
record batch, bulk merge emits one record per cluster plus one pass-through
record per unclustered index: the output row count is
`#clusters + #singletons`, the cluster sizes and singletons partition the
batch (`sum(|cluster|) + |singletons| = |records|`), one `MergeResult` is
produced per cluster, and every record index is owned by exactly one output
record. -/
theorem C6_bulkMerge_partition (df : Frame) (dStrat : MergeStrategy)
    (fStrats : List (String × MergeStrategy)) (clusters : List (List ℕ))
    (_hne : ∀ c ∈ clusters, c ≠ [])
    (hnd : ∀ c ∈ clusters, c.Nodup)
    (hrange : ∀ c ∈ clusters, ∀ i ∈ c, i < df.rows.length)
    (hdisj : clusters.Pairwise (fun a b => ∀ i ∈ a, i ∉ b)) :
    (bulkMerge df dStrat fStrats clusters).1.length =
      clusters.length + (singletonIdx df clusters).length ∧
    (singletonIdx df clusters).length + (clusters.map List.length).sum =
      df.rows.length ∧
    (bulkMerge df dStrat fStrats clusters).2.length = clusters.length ∧
    (∀ k, k < df.rows.length →
      clusters.countP (fun c => decide (k ∈ c)) +
        (if k ∈ singletonIdx df clusters then 1 else 0) = 1) := by
  have hfn : clusters.flatten.Nodup := flattenNodup _ hnd hdisj
  have hfr : ∀ i ∈ clusters.flatten, i < df.rows.length := by
    intro i hi
    obtain ⟨d, hd, hid⟩ := List.mem_flatten.1 hi
    exact hrange d hd i hid
  refine ⟨?_, ?_, ?_, ?_⟩
  · simp [bulkMerge]
  · have hsplit := length_filter_split (List.range df.rows.length)
      (fun i => decide (i ∈ clusters.flatten))
    have hflen := filter_mem_length df.rows.length clusters.flatten hfn hfr
    have hsingle : singletonIdx df clusters =
        (List.range df.rows.length).filter
          (fun i => !(decide (i ∈ clusters.flatten))) := by
      rw [singletonIdx]
      apply List.filter_congr
      intro a _
      rw [decide_not]
    have hsum : clusters.flatten.length = (clusters.map List.length).sum := by
      simp [List.length_flatten]
    rw [hsingle]
    rw [List.length_range] at hsplit
    omega
  · simp [bulkMerge]
  · intro k _
    by_cases hk : k ∈ clusters.flatten
    · rw [countP_disjoint_one clusters k hdisj hk]
      rw [if_neg (fun hmem => ((mem_singletonIdx df clusters k).1 hmem).2 hk)]
    · rw [countP_not_mem_zero clusters k hk]
      rw [if_pos ((mem_singletonIdx df clusters k).2 ⟨by assumption, hk⟩)]

/-- Witness for C6: four records, clusters `[[0, 2], [1]]`, singleton `3`. -/
theorem C6_witness :
    (bulkMerge df4 MergeStrategy.keepFirst [] [[0, 2], [1]]).1.length =
      ([[0, 2], [1]] : List (List ℕ)).length +
        (singletonIdx df4 [[0, 2], [1]]).length ∧
    (singletonIdx df4 [[0, 2], [1]]).length +
      (([[0, 2], [1]] : List (List ℕ)).map List.length).sum = df4.rows.length ∧
    (bulkMerge df4 MergeStrategy.keepFirst [] [[0, 2], [1]]).2.length =
      ([[0, 2], [1]] : List (List ℕ)).length ∧
    (∀ k, k < df4.rows.length →
      ([[0, 2], [1]] : List (List ℕ)).countP (fun c => decide (k ∈ c)) +
        (if k ∈ singletonIdx df4 [[0, 2], [1]] then 1 else 0) = 1) :=
  C6_bulkMerge_partition df4 MergeStrategy.keepFirst [] [[0, 2], [1]]
    (by decide) (by decide) (by decide) (by decide)

/-! ## Helper lemmas: cluster aggregation -/

/-- Appending one field score extends exactly that field's accumulated list. -/
theorem aggAt_addFieldScore (agg : List (String × List ℚ)) (f : String) (s : ℚ)
    (g : String) :
    aggAt (addFieldScore agg f s) g = aggAt agg g ++ (if f = g then [s] else []) := by
  induction agg with
  | nil =>
    by_cases h : f = g <;> simp [addFieldScore, aggAt, assocFind, h]
  | cons e es ih =>
    by_cases h1 : e.1 = f
    · simp only [addFieldScore, if_pos h1]
      by_cases h2 : f = g
      · simp [aggAt, assocFind, h2, h1.trans h2]
      · have h3 : ¬ e.1 = g := by rw [h1]; exact h2
        simp [aggAt, assocFind, h2, h3]
    · simp only [addFieldScore, if_neg h1]
      by_cases h3 : e.1 = g
      · have h4 : ¬ f = g := fun h => h1 (h3.trans h.symm)
        simp [aggAt, assocFind, h3, h4]
      · simpa [aggAt, assocFind, h3] using ih

/-- Folding a pair's field scores appends, per field, exactly the matching
scores in order. -/
theorem aggAt_foldFields (fs : List (String × ℚ)) (agg : List (String × List ℚ))
    (g : String) :
    aggAt (fs.foldl (fun a e => addFieldScore a e.1 e.2) agg) g =
      aggAt agg g ++ (fs.filter (fun e => decide (e.1 = g))).map Prod.snd := by
  induction fs generalizing agg with
  | nil => simp
  | cons e es ih =>
    rw [List.foldl_cons, ih, aggAt_addFieldScore]
    by_cases h : e.1 = g <;> simp [List.filter_cons, h, List.append_assoc]

/-- `addFieldScore` never creates an empty score list. -/
theorem addFieldScore_values (agg : List (String × List ℚ)) (f : String) (s : ℚ)
    (h : ∀ x ∈ agg, x.2 ≠ []) : ∀ x ∈ addFieldScore agg f s, x.2 ≠ [] := by
  induction agg with
  | nil =>
    intro x hx
    simp [addFieldScore] at hx
    simp [hx]
  | cons e es ih =>
    by_cases h1 : e.1 = f
    · simp only [addFieldScore, if_pos h1]
      intro x hx
      rcases List.mem_cons.1 hx with rfl | hx2
      · simp
      · exact h x (List.mem_cons_of_mem _ hx2)
    · simp only [addFieldScore, if_neg h1]
      intro x hx
      rcases List.mem_cons.1 hx with rfl | hx2
      · exact h x (List.mem_cons_self _ _)
      · exact ih (fun y hy => h y (List.mem_cons_of_mem _ hy)) x hx2

/-- The field-score fold never creates an empty score list. -/
theorem foldFields_values (fs : List (String × ℚ)) (agg : List (String × List ℚ))
    (h : ∀ x ∈ agg, x.2 ≠ []) :
    ∀ x ∈ fs.foldl (fun a e => addFieldScore a e.1 e.2) agg, x.2 ≠ [] := by
  induction fs generalizing agg with
  | nil => exact h
  | cons e es ih => exact ih _ (addFieldScore_values _ _ _ h)

/-- A successful association lookup is a member of the list. -/
theorem assocFind_some_mem {α β : Type} [DecidableEq α] (l : List (α × β)) (k : α)
    (b : β) (h : assocFind l k = some b) : (k, b) ∈ l := by
  induction l with
  | nil => simp [assocFind] at h
  | cons e es ih =>
    by_cases h1 : e.1 = k
    · simp only [assocFind, if_pos h1, Option.some.injEq] at h
      subst h1
      subst h
      exact List.mem_cons_self _ _
    · simp only [assocFind, if_neg h1] at h
      exact List.mem_cons_of_mem _ (ih h)

/-- Association lookup commutes with a value-only map. -/
theorem assocFind_mapVal {α β γ : Type} [DecidableEq α] (l : List (α × β))
    (v : β → γ) (k : α) :
    assocFind (l.map (fun p => (p.1, v p.2))) k = (assocFind l k).map v := by
  induction l with
  | nil => simp [assocFind]
  | cons e es ih => by_cases h : e.1 = k <;> simp [assocFind, h, ih]

/-- Closed form for the aggregation fold of `_cluster_pairs`: the total score
is the sum of the looked-up pair scores, the pair count is their number, and
each field's accumulated list is the concatenation of its scores across those
pairs; no accumulated list is empty. -/
theorem aggFold_spec (ps : PairScores) (pairs : List (ℕ × ℕ))
    (acc : ℚ × ℕ × List (String × List ℚ)) :
    (pairs.foldl (aggStep ps) acc).1 =
      acc.1 + ((pairs.filterMap
        (fun q => assocFind ps (min q.1 q.2, max q.1 q.2))).map PairData.score).sum ∧
    (pairs.foldl (aggStep ps) acc).2.1 =
      acc.2.1 + (pairs.filterMap
        (fun q => assocFind ps (min q.1 q.2, max q.1 q.2))).length ∧
    (∀ g, aggAt (pairs.foldl (aggStep ps) acc).2.2 g =
      aggAt acc.2.2 g ++
        (pairs.filterMap (fun q => assocFind ps (min q.1 q.2, max q.1 q.2))).flatMap
          (fun d => (d.field_scores.filter (fun e => decide (e.1 = g))).map Prod.snd)) ∧
    ((∀ x ∈ acc.2.2, x.2 ≠ []) →
      ∀ x ∈ (pairs.foldl (aggStep ps) acc).2.2, x.2 ≠ []) := by
  induction pairs generalizing acc with
  | nil => simp
  | cons q qs ih =>
    rw [List.foldl_cons]
    cases hlk : assocFind ps (min q.1 q.2, max q.1 q.2) with
    | none =>
      have hstep : aggStep ps acc q = acc := by simp [aggStep, hlk]
      rw [hstep]
      obtain ⟨i1, i2, i3, i4⟩ := ih acc
      refine ⟨?_, ?_, ?_, i4⟩
      · rw [i1]
        simp [List.filterMap_cons, hlk]
      · rw [i2]
        simp [List.filterMap_cons, hlk]
      · intro g
        rw [i3 g]
        simp [List.filterMap_cons, hlk]
    | some d =>
      have hstep : aggStep ps acc q =
          (acc.1 + d.score, acc.2.1 + 1,
           d.field_scores.foldl (fun a e => addFieldScore a e.1 e.2) acc.2.2) := by
        simp [aggStep, hlk]
      rw [hstep]
      obtain ⟨i1, i2, i3, i4⟩ := ih
        (acc.1 + d.score, acc.2.1 + 1,
         d.field_scores.foldl (fun a e => addFieldScore a e.1 e.2) acc.2.2)
      refine ⟨?_, ?_, ?_, ?_⟩
      · rw [i1]
        simp [List.filterMap_cons, hlk]
        ring
      · rw [i2]
        simp [List.filterMap_cons, hlk]
        omega
      · intro g
        rw [i3 g]
        simp only [aggAt_foldFields]
        simp [List.filterMap_cons, hlk, List.append_assoc]
      · intro hinv
        exact i4 (foldFields_values _ _ hinv)

/-- The cluster built from a group carries the sorted indices, the mean of the
scored intra-group pair scores (0 when there are none), and, per field, the
mean of that field's recorded scores. -/
theorem mkCluster_spec (ps : PairScores) (cid : ℕ) (idcs : List ℕ) :
    (mkCluster ps cid idcs).confidence =
      (if 0 < (scoredIntra ps idcs).length then
        ((scoredIntra ps idcs).map PairData.score).sum /
          ((scoredIntra ps idcs).length : ℚ)
       else 0) ∧
    (∀ fld, assocFind (mkCluster ps cid idcs).field_similarities fld =
      if fieldScoresAt ps idcs fld = [] then none
      else some ((fieldScoresAt ps idcs fld).sum /
        ((fieldScoresAt ps idcs fld).length : ℚ))) ∧
    (mkCluster ps cid idcs).record_indices = sortNat idcs ∧
    (mkCluster ps cid idcs).cluster_id = cid := by
  have hsc : (positionPairs idcs).filterMap
      (fun q => assocFind ps (min q.1 q.2, max q.1 q.2)) = scoredIntra ps idcs := by
    rw [scoredIntra, normPairs, List.filterMap_map]
    rfl
  obtain ⟨a1, a2, a3, a4⟩ := aggFold_spec ps (positionPairs idcs) (0, 0, [])
  rw [hsc] at a1 a2 a3
  have hfld : ∀ fld, fieldScoresAt ps idcs fld =
      aggAt (aggregatePairs ps (positionPairs idcs)).2.2 fld := by
    intro fld
    rw [fieldScoresAt, aggregatePairs, a3 fld]
    simp [aggAt, assocFind]
  refine ⟨?_, ?_, rfl, rfl⟩
  · rw [mkCluster]
    simp only [aggregatePairs] at a1 a2 ⊢
    rw [a1, a2]
    simp
  · intro fld
    rw [mkCluster]
    simp only []
    rw [assocFind_mapVal _ (fun l : List ℚ => l.sum / (l.length : ℚ))]
    have hinv : ∀ x ∈ (aggregatePairs ps (positionPairs idcs)).2.2, x.2 ≠ [] := by
      rw [aggregatePairs]
      exact a4 (by simp)
    cases hfd : assocFind (aggregatePairs ps (positionPairs idcs)).2.2 fld with
    | none =>
      have hempty : fieldScoresAt ps idcs fld = [] := by
        rw [hfld fld, aggAt, hfd]
        rfl
      simp [hempty]
    | some v =>
      have hv : fieldScoresAt ps idcs fld = v := by
        rw [hfld fld, aggAt, hfd]
        rfl
      have hvne : v ≠ [] := hinv (fld, v) (assocFind_some_mem _ _ _ hfd)
      rw [if_neg (show fieldScoresAt ps idcs fld ≠ [] from by rw [hv]; exact hvne)]
      simp [hv]

/-! ## Helper lemmas: permutation invariance of the aggregation -/

/-- `normPairs` on a cons splits into the head's pairs and the tail's pairs. -/
theorem normPairs_cons (a : ℕ) (l : List ℕ) :
    normPairs (a :: l) = l.map (fun y => (min a y, max a y)) ++ normPairs l := by
  simp [normPairs, positionPairs, List.map_map]

/-- Permuting the index list permutes its normalized intra-group pairs. -/
theorem normPairs_perm {l l' : List ℕ} (h : l ~ l') : normPairs l ~ normPairs l' := by
  induction h with
  | nil => rfl
  | cons x h ih =>
    rw [normPairs_cons, normPairs_cons]
    exact (h.map _).append ih
  | swap x y l =>
    rw [normPairs_cons, normPairs_cons, normPairs_cons, normPairs_cons]
    have hxy : (min y x, max y x) = (min x y, max x y) := by
      rw [min_comm, max_comm]
    simp only [List.map_cons, List.cons_append, hxy]
    refine List.Perm.cons _ ?_
    calc l.map (fun z => (min y z, max y z)) ++
          (l.map (fun z => (min x z, max x z)) ++ normPairs l)
        = (l.map (fun z => (min y z, max y z)) ++
            l.map (fun z => (min x z, max x z))) ++ normPairs l := by
          rw [List.append_assoc]
      _ ~ (l.map (fun z => (min x z, max x z)) ++
            l.map (fun z => (min y z, max y z))) ++ normPairs l :=
          (List.perm_append_comm).append_right _
      _ = l.map (fun z => (min x z, max x z)) ++
            (l.map (fun z => (min y z, max y z)) ++ normPairs l) := by
          rw [List.append_assoc]
  | trans _ _ ih1 ih2 => exact ih1.trans ih2

/-- Permuting the index list permutes the scored intra-group pair data. -/
theorem scoredIntra_perm (ps : PairScores) {l l' : List ℕ} (h : l ~ l') :
    scoredIntra ps l ~ scoredIntra ps l' :=
  (normPairs_perm h).filterMap _

/-- `flatMap` respects permutation of the outer list. -/
theorem permFlatMap {α β : Type} (f : α → List β) {l l' : List α} (h : l ~ l') :
    l.flatMap f ~ l'.flatMap f := by
  induction h with
  | nil => rfl
  | cons x h ih =>
    simp only [List.flatMap_cons]
    exact ih.append_left _
  | swap x y l =>
    simp only [List.flatMap_cons]
    calc f y ++ (f x ++ l.flatMap f) = (f y ++ f x) ++ l.flatMap f := by
          rw [List.append_assoc]
      _ ~ (f x ++ f y) ++ l.flatMap f := (List.perm_append_comm).append_right _
      _ = f x ++ (f y ++ l.flatMap f) := by rw [List.append_assoc]
  | trans _ _ ih1 ih2 => exact ih1.trans ih2

/-- Inserting into a sorted list is a permutation of consing. -/
theorem insNat_perm (x : ℕ) (l : List ℕ) : insNat x l ~ x :: l := by
  induction l with
  | nil => rfl
  | cons y ys ih =>
    rw [insNat]
    by_cases h : y ≤ x
    · rw [if_pos h]
      exact (ih.cons y).trans (List.Perm.swap x y ys)
    · rw [if_neg h]

/-- `sorted` permutes its input. -/
theorem sortNat_perm (l : List ℕ) : sortNat l ~ l := by
  induction l with
  | nil => rfl
  | cons x xs ih => exact (insNat_perm x (sortNat xs)).trans (ih.cons x)

/-- Descending insertion is a permutation of consing. -/
theorem insDescQ_perm {α : Type} (key : α → ℚ) (x : α) (l : List α) :
    insDescQ key x l ~ x :: l := by
  induction l with
  | nil => rfl
  | cons y ys ih =>
    rw [insDescQ]
    by_cases h : key y ≤ key x
    · rw [if_pos h]
    · rw [if_neg h]
      exact (ih.cons y).trans (List.Perm.swap x y ys)

/-- The stable descending sort permutes its input. -/
theorem sortDescQ_perm {α : Type} (key : α → ℚ) (l : List α) :
    sortDescQ key l ~ l := by
  induction l with
  | nil => rfl
  | cons x xs ih => exact (insDescQ_perm key x (sortDescQ key xs)).trans (ih.cons x)

/-! ## Helper lemmas: union-find keys and groups -/

/-- A failed association lookup means the key is absent. -/
theorem assocFind_eq_none {α β : Type} [DecidableEq α] (l : List (α × β)) (k : α) :
    assocFind l k = none ↔ k ∉ l.map Prod.fst := by
  induction l with
  | nil => simp [assocFind]
  | cons e es ih =>
    by_cases h : e.1 = k
    · simp [assocFind, h]
    · simp [assocFind, h, ih, Ne.symm h]

/-- Dict assignment preserves the key list, or appends the fresh key. -/
theorem dictSetNat_keys (m : List (ℕ × ℕ)) (k v : ℕ) :
    (dictSetNat m k v).map Prod.fst =
      if k ∈ m.map Prod.fst then m.map Prod.fst else m.map Prod.fst ++ [k] := by
  induction m with
  | nil => simp [dictSetNat]
  | cons e es ih =>
    by_cases h : e.1 = k
    · simp [dictSetNat, h]
    · simp only [dictSetNat, if_neg h, List.map_cons, ih]
      by_cases h2 : k ∈ es.map Prod.fst
      · simp [h2, Ne.symm h]
      · simp [h2, Ne.symm h]

/-- Dict assignment keeps the keys duplicate-free. -/
theorem keys_nodup_dictSetNat (m : List (ℕ × ℕ)) (k v : ℕ)
    (h : (m.map Prod.fst).Nodup) : ((dictSetNat m k v).map Prod.fst).Nodup := by
  rw [dictSetNat_keys]
  by_cases h2 : k ∈ m.map Prod.fst
  · simpa [h2] using h
  · simp only [if_neg h2]
    rw [List.nodup_append]
    refine ⟨h, List.nodup_singleton _, ?_⟩
    intro a ha hak
    rw [List.mem_singleton] at hak
    subst hak
    exact h2 ha

/-- `find`'s conditional insertion keeps the keys duplicate-free. -/
theorem keys_nodup_ufAdd (p : List (ℕ × ℕ)) (x : ℕ)
    (h : (p.map Prod.fst).Nodup) : ((ufAdd p x).map Prod.fst).Nodup := by
  rw [ufAdd]
  by_cases h2 : (assocFind p x).isSome
  · simpa [h2] using h
  · simp only [if_neg h2]
    rw [List.map_append, List.nodup_append]
    refine ⟨h, by simp, ?_⟩
    intro a ha hak
    simp only [List.map_cons, List.map_nil, List.mem_singleton] at hak
    have hnone : assocFind p x = none := by
      cases hfd : assocFind p x
      · rfl
      · exact absurd (by simp [hfd]) h2
    rw [hak] at ha
    exact (assocFind_eq_none p x).1 hnone ha

/-- `union` keeps the parent dict's keys duplicate-free. -/
theorem keys_nodup_ufUnion (p : List (ℕ × ℕ)) (x y : ℕ)
    (h : (p.map Prod.fst).Nodup) : ((ufUnion p x y).map Prod.fst).Nodup := by
  rw [ufUnion]
  simp only [ufFind]
  split
  · exact keys_nodup_ufAdd _ _ (keys_nodup_ufAdd _ _ h)
  · exact keys_nodup_dictSetNat _ _ _ (keys_nodup_ufAdd _ _ (keys_nodup_ufAdd _ _ h))

/-- The union-find parent dict built from the scored pairs has
duplicate-free keys. -/
theorem parentOf_keys_nodup (ps : PairScores) :
    ((parentOf ps).map Prod.fst).Nodup := by
  rw [parentOf]
  suffices h : ∀ (l : PairScores) (acc : List (ℕ × ℕ)), (acc.map Prod.fst).Nodup →
      ((l.foldl (fun p pr => ufUnion p pr.1.1 pr.1.2) acc).map Prod.fst).Nodup by
    exact h ps [] (by simp)
  intro l
  induction l with
  | nil =>
    intro acc h
    simpa using h
  | cons e es ih =>
    intro acc h
    rw [List.foldl_cons]
    exact ih _ (keys_nodup_ufUnion _ _ _ h)

/-- Appending an index to a group adds exactly that index to the flattened
group contents. -/
theorem addGroup_flat (cd : List (ℕ × List ℕ)) (r i : ℕ) :
    List.Perm ((addGroup cd r i).flatMap Prod.snd) (cd.flatMap Prod.snd ++ [i]) := by
  induction cd with
  | nil => simp [addGroup]
  | cons g gs ih =>
    by_cases h : g.1 = r
    · simp only [addGroup, if_pos h, List.flatMap_cons]
      calc (g.2 ++ [i]) ++ gs.flatMap Prod.snd
          = g.2 ++ ([i] ++ gs.flatMap Prod.snd) := by rw [List.append_assoc]
        _ ~ g.2 ++ (gs.flatMap Prod.snd ++ [i]) :=
            (List.perm_append_comm).append_left g.2
        _ = (g.2 ++ gs.flatMap Prod.snd) ++ [i] := by rw [List.append_assoc]
    · simp only [addGroup, if_neg h, List.flatMap_cons]
      calc g.2 ++ (addGroup gs r i).flatMap Prod.snd
          ~ g.2 ++ (gs.flatMap Prod.snd ++ [i]) := ih.append_left g.2
        _ = (g.2 ++ gs.flatMap Prod.snd) ++ [i] := by rw [List.append_assoc]

/-- The grouping fold distributes each processed key into exactly one group. -/
theorem foldGroups_flat (f : ℕ → ℕ) (l : List (ℕ × ℕ)) (cd : List (ℕ × List ℕ)) :
    List.Perm ((l.foldl (fun cd q => addGroup cd (f q.1) q.1) cd).flatMap Prod.snd)
      (cd.flatMap Prod.snd ++ l.map Prod.fst) := by
  induction l generalizing cd with
  | nil => simp
  | cons q qs ih =>
    rw [List.foldl_cons]
    calc (qs.foldl (fun cd q => addGroup cd (f q.1) q.1)
            (addGroup cd (f q.1) q.1)).flatMap Prod.snd
        ~ (addGroup cd (f q.1) q.1).flatMap Prod.snd ++ qs.map Prod.fst := ih _
      _ ~ (cd.flatMap Prod.snd ++ [q.1]) ++ qs.map Prod.fst :=
          (addGroup_flat _ _ _).append_right _
      _ = cd.flatMap Prod.snd ++ (q.1 :: qs.map Prod.fst) := by
          simp [List.append_assoc]

/-- The contents of the root groups are a permutation of the parent keys. -/
theorem groupsOf_flat_perm (ps : PairScores) :
    List.Perm ((groupsOf ps).flatMap Prod.snd) ((parentOf ps).map Prod.fst) := by
  have h := foldGroups_flat (rootOf (parentOf ps)) (parentOf ps) []
  simpa [groupsOf] using h

/-- Every root group holds distinct indices. -/
theorem groups_nodup (ps : PairScores) : ∀ g ∈ groupsOf ps, g.2.Nodup := by
  have hnd : ((groupsOf ps).flatMap Prod.snd).Nodup :=
    (groupsOf_flat_perm ps).nodup_iff.2 (parentOf_keys_nodup ps)
  revert hnd
  generalize groupsOf ps = cd
  induction cd with
  | nil => simp
  | cons g gs ih =>
    intro hcd
    rw [List.flatMap_cons, List.nodup_append] at hcd
    intro g' hg'
    rcases List.mem_cons.1 hg' with rfl | h2
    · exact hcd.1
    · exact ih hcd.2.1 g' h2

/-- Membership in the built cluster list comes from an enumerated group of
size at least 2. -/
theorem mem_buildClusters (ps : PairScores) (groups : List (ℕ × List ℕ))
    (c : DuplicateCluster) :
    c ∈ buildClusters ps groups ↔
      ∃ e ∈ groups.enum, ¬ e.2.2.length < 2 ∧ c = mkCluster ps e.1 e.2.2 := by
  rw [buildClusters]
  simp only [List.mem_filterMap]
  constructor
  · rintro ⟨e, he, hsome⟩
    by_cases h : e.2.2.length < 2
    · simp [h] at hsome
    · simp only [if_neg h, Option.some.injEq] at hsome
      exact ⟨e, he, h, hsome.symm⟩
  · rintro ⟨e, he, h, rfl⟩
    exact ⟨e, he, by simp [h]⟩

/-- The payload of an enumerated entry is a member of the list. -/
theorem enum_snd_mem {α : Type} (l : List α) (e : ℕ × α) (h : e ∈ l.enum) :
    e.2 ∈ l := by
  have hmap : (l.enum.map Prod.snd) = l := List.enum_map_snd l
  rw [← hmap]
  exact List.mem_map_of_mem _ h

/-! ## Claim C1 -/

/-- C1: every cluster emitted by `_cluster_pairs` has distinct record indices,
its aggregate confidence is the mean of the scores of exactly those
intra-cluster pairs present in the scored-pair input (pairs never compared
contribute nothing, they are not counted as 0), and its per-field similarity
map holds, per field, the mean of that field's scores over those same pairs.
In particular, with (0,1) scored 0.85, (1,2) scored 0.82 and (0,2) never
compared, records 0, 1, 2 form one cluster with confidence
(0.85 + 0.82)/2 = 0.835. -/
theorem C1_cluster_confidence_mean :
    (∀ ps : PairScores, ∀ c ∈ clusterPairs ps,
      c.record_indices.Nodup ∧
      (scoredIntra ps c.record_indices ≠ [] →
        c.confidence =
          ((scoredIntra ps c.record_indices).map PairData.score).sum /
            ((scoredIntra ps c.record_indices).length : ℚ)) ∧
      (∀ fld, assocFind c.field_similarities fld =
        if fieldScoresAt ps c.record_indices fld = [] then none
        else some ((fieldScoresAt ps c.record_indices fld).sum /
          ((fieldScoresAt ps c.record_indices fld).length : ℚ)))) ∧
    clusterPairs psABC = [cABC] := by
  constructor
  · intro ps c hc
    rw [clusterPairs] at hc
    by_cases hps : ps.isEmpty
    · rw [if_pos hps] at hc
      simp at hc
    · rw [if_neg hps] at hc
      rw [(sortDescQ_perm _ _).mem_iff] at hc
      rw [mem_buildClusters] at hc
      obtain ⟨e, he, _, rfl⟩ := hc
      have hgmem : e.2 ∈ groupsOf ps := enum_snd_mem _ _ he
      have hnodup : e.2.2.Nodup := groups_nodup ps e.2 hgmem
      obtain ⟨m1, m2, m3, _⟩ := mkCluster_spec ps e.1 e.2.2
      have hperm : List.Perm (sortNat e.2.2) e.2.2 := sortNat_perm e.2.2
      have hscperm : List.Perm (scoredIntra ps (sortNat e.2.2))
          (scoredIntra ps e.2.2) := scoredIntra_perm ps hperm
      refine ⟨?_, ?_, ?_⟩
      · rw [m3]
        exact hperm.nodup_iff.2 hnodup
      · rw [m3]
        intro hne
        have hlen_eq : (scoredIntra ps (sortNat e.2.2)).length =
            (scoredIntra ps e.2.2).length := hscperm.length_eq
        have hsum_eq : ((scoredIntra ps (sortNat e.2.2)).map PairData.score).sum =
            ((scoredIntra ps e.2.2).map PairData.score).sum := (hscperm.map _).sum_eq
        have hpos : 0 < (scoredIntra ps e.2.2).length := by
          rw [← hlen_eq]
          exact List.length_pos.2 hne
        rw [m1, if_pos hpos, ← hsum_eq, ← hlen_eq]
      · rw [m3]
        intro fld
        have hfperm : List.Perm (fieldScoresAt ps (sortNat e.2.2) fld)
            (fieldScoresAt ps e.2.2 fld) := permFlatMap _ hscperm
        rw [m2 fld]
        by_cases hA : fieldScoresAt ps e.2.2 fld = []
        · have hB : fieldScoresAt ps (sortNat e.2.2) fld = [] := by
            have h0 := hfperm
            rw [hA] at h0
            exact h0.eq_nil
          rw [if_pos hA, if_pos hB]
        · have hB : fieldScoresAt ps (sortNat e.2.2) fld ≠ [] := by
            intro hB0
            apply hA
            have h0 := hfperm
            rw [hB0] at h0
            exact h0.symm.eq_nil
          rw [if_neg hA, if_neg hB, hfperm.sum_eq, hfperm.length_eq]
  · norm_num +decide [clusterPairs, psABC, cABC, sortDescQ, insDescQ, buildClusters,
      groupsOf, parentOf, ufUnion, ufFind, ufAdd, rootOf, chase, dictSetNat, addGroup,
      mkCluster, aggregatePairs, aggStep, positionPairs, addFieldScore, sortNat,
      insNat, assocFind]

/-- Witness for C1 at the transitivity scenario's emitted cluster. -/
theorem C1_witness :
    cABC.record_indices.Nodup ∧
    (scoredIntra psABC cABC.record_indices ≠ [] →
      cABC.confidence =
        ((scoredIntra psABC cABC.record_indices).map PairData.score).sum /
          ((scoredIntra psABC cABC.record_indices).length : ℚ)) ∧
    (∀ fld, assocFind cABC.field_similarities fld =
      if fieldScoresAt psABC cABC.record_indices fld = [] then none
      else some ((fieldScoresAt psABC cABC.record_indices fld).sum /
        ((fieldScoresAt psABC cABC.record_indices fld).length : ℚ))) :=
  C1_cluster_confidence_mean.1 psABC cABC
    (by
      norm_num +decide [clusterPairs, psABC, cABC, sortDescQ, insDescQ, buildClusters,
        groupsOf, parentOf, ufUnion, ufFind, ufAdd, rootOf, chase, dictSetNat,
        addGroup, mkCluster, aggregatePairs, aggStep, positionPairs, addFieldScore,
        sortNat, insNat, assocFind])

end DataCleanup
